import Mathlib

/-!
Verification of the two-column hypergraph layout module
(`hypernetx/drawing/two_column.py`).

The module converts a hypergraph to its bipartite graph, decomposes it into
connected components, sorts each component's node and hyperedge subsets by a
rank function (spectral ordering, or a caller-supplied `nodeorder`), stacks
the two subsets in two columns, and shifts each component by a running
offset.  The renderer then draws one line per (node, hyperedge) membership
pair using the returned position map.

Numbers are embedded as exact rationals (`ℚ`); every coordinate the code
computes is a half-integer, so this is faithful.  The external
`nx.spectral_ordering` call is a parameter (`specOrd`) of the embedding.
-/

set_option maxHeartbeats 1000000

namespace TwoColumn

/-- Vertex of the bipartite graph built by `H.bipartite()`: hypergraph nodes
are integers, hyperedge identifiers are strings (`isinstance(edge, str)`). -/
inductive V where
  | node : Nat → V
  | edge : String → V
deriving DecidableEq, Repr

/-- A hypergraph: a list of node identifiers and a list of hyperedges, each a
name paired with the list of member nodes. -/
structure Hypergraph where
  nodes : List Nat
  edges : List (String × List Nat)
deriving DecidableEq, Repr

/-- Internal consistency of `H`: every node referenced by a hyperedge is a
node of `H` (owned by the hypergraph collaborator, assumed by the module). -/
def Wf (H : Hypergraph) : Prop :=
  ∀ p ∈ H.edges, ∀ n ∈ p.2, n ∈ H.nodes

instance (H : Hypergraph) : Decidable (Wf H) := by
  unfold Wf; infer_instance

/-- The `bipartite` attribute: hypergraph nodes get tag 0, hyperedges tag 1. -/
def bipartiteTag : V → Nat
  | V.node _ => 0
  | V.edge _ => 1

/-- Vertex list of `H.bipartite()`: all hypergraph nodes (tag 0) followed by
all hyperedges (tag 1), in hypergraph order. -/
def bipartiteVerts (H : Hypergraph) : List V :=
  H.nodes.map V.node ++ H.edges.map (fun p => V.edge p.1)

/-- Adjacency of `H.bipartite()`: a node and a hyperedge are adjacent iff the
hyperedge contains the node. -/
def bipAdj (H : Hypergraph) : V → V → Bool
  | V.node n, V.edge e => H.edges.any fun p => decide (p.1 = e) && decide (n ∈ p.2)
  | V.edge e, V.node n => H.edges.any fun p => decide (p.1 = e) && decide (n ∈ p.2)
  | _, _ => false

/-- One breadth step of component discovery: all graph vertices that are in
`s` or adjacent to a member of `s`, in graph vertex order. -/
def expand (H : Hypergraph) (s : List V) : List V :=
  (bipartiteVerts H).filter fun v => decide (v ∈ s) || s.any fun u => bipAdj H u v

/-- The iterates of the breadth step, starting from `[v]`. -/
def compIter (H : Hypergraph) (v : V) : Nat → List V
  | 0 => [v]
  | k + 1 => expand H (compIter H v k)

/-- The connected component of `v` in `H.bipartite()`: the sublist of the
graph's vertices reachable from `v`, obtained by saturating the breadth
step (as many iterations as there are vertices suffice). -/
def componentOf (H : Hypergraph) (v : V) : List V :=
  compIter H v (bipartiteVerts H).length

/-- Models `nx.connected_components(H.bipartite())`: components in order of
first discovery over the vertex list, each listed in graph vertex order. -/
def componentsAux (H : Hypergraph) : List V → List V → List (List V)
  | [], _ => []
  | v :: rest, seen =>
    if v ∈ seen then componentsAux H rest seen
    else componentOf H v :: componentsAux H rest (seen ++ componentOf H v)

def components (H : Hypergraph) : List (List V) :=
  componentsAux H (bipartiteVerts H) []

/-- `d.get(k)` for a Python dict built from an association list: later
entries overwrite earlier ones, a missing key gives `None`. -/
def pyDictGet {α β : Type} [DecidableEq α] (l : List (α × β)) (a : α) : Option β :=
  (l.reverse.find? fun p => decide (p.1 = a)).map Prod.snd

/-- `enumerate(l)` collected as (element, index) pairs, as in the dict
comprehensions `{v: i for i, v in enumerate(...)}`. -/
def enumPairs {α : Type} : Nat → List α → List (α × Int)
  | _, [] => []
  | i, v :: vs => (v, (i : Int)) :: enumPairs (i + 1) vs

/-- `[edge for edge in Gi.nodes if isinstance(edge, str)]`. -/
def edgeNamesOf (ci : List V) : List String :=
  ci.filterMap fun v => match v with | V.edge e => some e | V.node _ => none

/-- The sort key used for a component `ci`: with no `nodeorder`, the rank of
each vertex in the externally computed spectral ordering of the component's
subgraph; with a `nodeorder`, hyperedges are ranked by discovery order and
nodes by the supplied mapping, the two dicts merged into one `.get`. -/
def componentKey (nodeorder : Option (List (Nat × Int))) (specOrd : List V → List V)
    (ci : List V) (v : V) : Option Int :=
  match nodeorder with
  | none => pyDictGet (enumPairs 0 (specOrd ci)) v
  | some no =>
    match v with
    | V.node n => pyDictGet no n
    | V.edge e => pyDictGet (enumPairs 0 (edgeNamesOf ci)) e

/-- Comparison of two vertices by their rank under `key`, as performed by the
sort (`None` never reaches a comparison in a run that does not raise). -/
def keyLe (key : V → Option Int) (u v : V) : Prop :=
  (key u).getD 0 ≤ (key v).getD 0

instance (key : V → Option Int) : DecidableRel (keyLe key) := by
  unfold keyLe; infer_instance

/-- Python's `sorted(xs, key=key)` with an `Option`-valued key function: a
missing rank (`None`) takes part in an order comparison — raising
`TypeError` — exactly when the list has at least two elements; otherwise the
list is sorted stably by rank (a stable sort by a total preorder has a unique
result, so any stable sort models CPython's timsort). -/
def pySorted (key : V → Option Int) (xs : List V) : Option (List V) :=
  if 2 ≤ xs.length ∧ ∃ x ∈ xs, key x = none then none
  else some (List.insertionSort (keyLe key) xs)

/-- The node subset of a component: vertices with bipartite tag 0. -/
def nodesOf (ci : List V) : List V := ci.filter fun v => bipartiteTag v == 0

/-- The hyperedge subset of a component: vertices with bipartite tag 1. -/
def edgesOf (ci : List V) : List V := ci.filter fun v => bipartiteTag v == 1

/-- The coordinate on the stacking axis:
`i + offset + (height - len(vertices)) / 2`. -/
def stackCoord (i : Nat) (offset : ℚ) (height size : Nat) : ℚ :=
  (i : ℚ) + offset + ((height : ℚ) - (size : ℚ)) / 2

/-- Positions written by `for i, v in enumerate(vertices)` in the inner
`stack` closure, starting at index `i`. -/
def stackGo (x offset : ℚ) (height size : Nat) (flip : Bool) :
    Nat → List V → List (V × ℚ × ℚ)
  | _, [] => []
  | i, v :: vs =>
    (v, if flip then (stackCoord i offset height size, x)
        else (x, stackCoord i offset height size)) ::
      stackGo x offset height size flip (i + 1) vs

/-- `stack(vertices, x, height, flip_orientation)` from the source. -/
def stack (x offset : ℚ) (height : Nat) (flip : Bool) (vs : List V) :
    List (V × ℚ × ℚ) :=
  stackGo x offset height vs.length flip 0 vs

/-- The per-component loop of `layout_two_column`: sort the node subset and
the hyperedge subset of each component, stack them at `x = 0` and
`x = width`, then advance the offset by `height + spacing`. -/
def layoutGo (spacing width : ℚ) (flip : Bool) (key : List V → V → Option Int) :
    List (List V) → ℚ → List (V × ℚ × ℚ) → Option (List (V × ℚ × ℚ))
  | [], _, pos => some pos
  | ci :: rest, offset, pos =>
    match pySorted (key ci) (nodesOf ci), pySorted (key ci) (edgesOf ci) with
    | some ci_vertices, some ci_edges =>
      let height := max ci_vertices.length ci_edges.length
      layoutGo spacing width flip key rest (offset + (height : ℚ) + spacing)
        (pos ++ stack 0 offset height flip ci_vertices
             ++ stack width offset height flip ci_edges)
    | _, _ => none

/-- `layout_two_column(H, spacing, width, flip_orientation, nodeorder)`,
parametric in the external `nx.spectral_ordering` (`specOrd`, applied to each
connected component's subgraph). -/
def layout_two_column (H : Hypergraph) (spacing width : ℚ) (flip_orientation : Bool)
    (nodeorder : Option (List (Nat × Int))) (specOrd : List V → List V) :
    Option (List (V × ℚ × ℚ)) :=
  layoutGo spacing width flip_orientation (componentKey nodeorder specOrd)
    (components H) 0 []

/-! ### The renderer: `draw_hyper_edges` and `draw` -/

/-- `pairs = [(node, edge.uid) for edge in H.edges() for node in edge]`. -/
def pairsOf : List (String × List Nat) → List (Nat × String)
  | [] => []
  | p :: ps => (p.2.map fun n => (n, p.1)) ++ pairsOf ps

def hyperPairs (H : Hypergraph) : List (Nat × String) :=
  pairsOf H.edges

/-- `n` is a member of hyperedge `e` in the edge list. -/
def memPairIn (es : List (String × List Nat)) (n : Nat) (e : String) : Prop :=
  ∃ p ∈ es, p.1 = e ∧ n ∈ p.2

instance (es : List (String × List Nat)) (n : Nat) (e : String) :
    Decidable (memPairIn es n e) := by
  unfold memPairIn; infer_instance

/-- `n` is a member of hyperedge `e` in `H`. -/
def memPair (H : Hypergraph) (n : Nat) (e : String) : Prop :=
  memPairIn H.edges n e

/-- `[(pos[node], pos[edge_id]) for node, edge_id in pairs]`: a missing key in
the position map raises `KeyError`. -/
def segmentsOf (pos : List (V × ℚ × ℚ)) :
    List (Nat × String) → Option (List ((ℚ × ℚ) × ℚ × ℚ))
  | [] => some []
  | p :: ps =>
    match pyDictGet pos (V.node p.1), pyDictGet pos (V.edge p.2), segmentsOf pos ps with
    | some a, some b, some rest => some ((a, b) :: rest)
    | _, _, _ => none

/-- The `LineCollection` segments built by `draw_hyper_edges(H, pos, ...)`:
one segment per (node, hyperedge) membership pair, from the node's position
to the hyperedge's position. -/
def draw_hyper_edges (H : Hypergraph) (pos : List (V × ℚ × ℚ)) :
    Option (List ((ℚ × ℚ) × ℚ × ℚ)) :=
  segmentsOf pos (hyperPairs H)

/-- A value stored in the `edge_kwargs` dict passed to `draw`: either the
per-hyperedge color map that `draw` writes (colors represented by their
`tab10` palette index `i % 10`), or a caller-supplied value we leave
uninterpreted. -/
inductive KwVal where
  | colors : List (String × Nat) → KwVal
  | other : Nat → KwVal
deriving DecidableEq, Repr

/-- Python dict assignment `d[k] = v`: overwrite the entry in place if the
key exists, otherwise append it. -/
def dictSet (d : List (String × KwVal)) (k : String) (v : KwVal) :
    List (String × KwVal) :=
  if d.any fun p => p.1 == k then d.map fun p => if p.1 == k then (k, v) else p
  else d ++ [(k, v)]

/-- `{e.uid: plt.cm.tab10(i % 10) for i, e in enumerate(H.edges())}` with
colors represented by the palette index `i % 10`. -/
def colorAssignGo : Nat → List (String × List Nat) → List (String × Nat)
  | _, [] => []
  | i, p :: ps => (p.1, i % 10) :: colorAssignGo (i + 1) ps

def colorAssign (H : Hypergraph) : List (String × Nat) :=
  colorAssignGo 0 H.edges

/-- The state of the caller's `edge_kwargs` dict after `draw(...)`, as
explicit state passing.  `edge_kwargs = edge_kwargs or {}` rebinds a falsy
argument (absent, or an empty dict) to a fresh dict, so only a non-empty
caller dict stays aliased; `draw` then executes
`edge_kwargs["color"] = {...}` whenever `with_color` is set. -/
def draw_edge_kwargs_after (H : Hypergraph)
    (edge_kwargs : Option (List (String × KwVal))) (with_color : Bool) :
    Option (List (String × KwVal)) :=
  match edge_kwargs with
  | none => none
  | some d =>
    if d.isEmpty then some d
    else some (if with_color then dictSet d "color" (KwVal.colors (colorAssign H)) else d)

/-- The layout call made by `draw`:
`layout_two_column(H, width=column_spacing, flip_orientation=..., nodeorder=...)`
— `spacing` is left at its default `0`. -/
def draw_pos (H : Hypergraph) (column_spacing : ℚ) (flip_orientation : Bool)
    (nodeorder : Option (List (Nat × Int))) (specOrd : List V → List V) :
    Option (List (V × ℚ × ℚ)) :=
  layout_two_column H 0 column_spacing flip_orientation nodeorder specOrd

/-! ### Spec-side characterisations (from the spec's words, for refinement) -/

/-- Spec: height of a component = max(node count, hyperedge count). -/
def compHeight (ci : List V) : Nat :=
  max (nodesOf ci).length (edgesOf ci).length

/-- Spec: the running offset of component `k` is the sum, over the prior
components, of `height + spacing`. -/
def offsetAt (spacing : ℚ) (cs : List (List V)) (k : Nat) : ℚ :=
  ((cs.take k).map fun ci => (compHeight ci : ℚ) + spacing).sum

/-- Spec formula for one placed item: primary coordinate `x`, stacking
coordinate `i + offset + (height - size) / 2` for sorted index `i`; flipping
the orientation swaps the two axes. -/
def specItemPos (x : ℚ) (i : Nat) (offset : ℚ) (height size : Nat) (flip : Bool) :
    ℚ × ℚ :=
  if flip then ((i : ℚ) + offset + ((height : ℚ) - (size : ℚ)) / 2, x)
  else (x, (i : ℚ) + offset + ((height : ℚ) - (size : ℚ)) / 2)

/-- Spec: a subset stacked at primary coordinate `x`, the item at sorted
index `i` placed by the centering formula. -/
def specStack (x offset : ℚ) (height : Nat) (flip : Bool) (vs : List V) :
    List (V × ℚ × ℚ) :=
  (List.range vs.length).map fun i =>
    (vs.getD i (V.node 0), specItemPos x i offset height vs.length flip)

/-- Spec: the block of one component — the sorted node subset at primary
coordinate 0 and the sorted hyperedge subset at primary coordinate `width`,
both centered within the component's height. -/
def specComponentBlock (width : ℚ) (flip : Bool) (key : V → Option Int)
    (ci : List V) (offset : ℚ) : List (V × ℚ × ℚ) :=
  specStack 0 offset (compHeight ci) flip
      (List.insertionSort (keyLe key) (nodesOf ci)) ++
    specStack width offset (compHeight ci) flip
      (List.insertionSort (keyLe key) (edgesOf ci))

/-- Spec: the whole position map — component `k` placed at the partial-sum
offset `offsetAt spacing cs k`. -/
def specLayout (spacing width : ℚ) (flip : Bool) (key : List V → V → Option Int)
    (cs : List (List V)) : List (V × ℚ × ℚ) :=
  ((List.range cs.length).map fun k =>
    specComponentBlock width flip (key (cs.getD k [])) (cs.getD k [])
      (offsetAt spacing cs k)).flatten

/-- The coordinate of a placed item on the stacking axis. -/
def secondary (flip : Bool) (p : ℚ × ℚ) : ℚ :=
  if flip then p.1 else p.2

/-! ### Correctness of the component decomposition -/

theorem bipAdj_symm (H : Hypergraph) (u v : V) : bipAdj H u v = bipAdj H v u := by
  cases u <;> cases v <;> rfl

theorem mem_expand {H : Hypergraph} {s : List V} {v : V} :
    v ∈ expand H s ↔
      v ∈ bipartiteVerts H ∧ (v ∈ s ∨ ∃ u ∈ s, bipAdj H u v = true) := by
  simp [expand, List.mem_filter]

theorem expand_subset {H : Hypergraph} {s : List V} :
    ∀ x ∈ expand H s, x ∈ bipartiteVerts H :=
  fun _ hx => (List.mem_filter.mp hx).1

theorem expand_congr {H : Hypergraph} {s t : List V} (h : ∀ x, x ∈ s ↔ x ∈ t) :
    expand H s = expand H t := by
  unfold expand
  refine List.filter_congr fun v _ => ?_
  apply Bool.eq_iff_iff.mpr
  simp [List.any_eq_true, h]

theorem compIter_subset_verts {H : Hypergraph} {v : V} (hv : v ∈ bipartiteVerts H) :
    ∀ k, ∀ x ∈ compIter H v k, x ∈ bipartiteVerts H
  | 0, x, hx => by
      simp only [compIter, List.mem_singleton] at hx
      exact hx ▸ hv
  | k + 1, x, hx => expand_subset x hx

theorem compIter_mono {H : Hypergraph} {v : V} (hv : v ∈ bipartiteVerts H) (k : Nat) :
    ∀ x ∈ compIter H v k, x ∈ compIter H v (k + 1) :=
  fun x hx => mem_expand.mpr ⟨compIter_subset_verts hv k x hx, Or.inl hx⟩

theorem compIter_le {H : Hypergraph} {v : V} (hv : v ∈ bipartiteVerts H)
    {k m : Nat} (h : k ≤ m) : ∀ x ∈ compIter H v k, x ∈ compIter H v m := by
  induction h with
  | refl => exact fun x hx => hx
  | step _ ih => exact fun x hx => compIter_mono hv _ x (ih x hx)

theorem self_mem_compIter {H : Hypergraph} {v : V} (hv : v ∈ bipartiteVerts H)
    (k : Nat) : v ∈ compIter H v k :=
  compIter_le hv (Nat.zero_le k) v (by simp [compIter])

theorem compIter_stab {H : Hypergraph} {v : V} {k : Nat}
    (h : ∀ x, x ∈ compIter H v (k + 1) ↔ x ∈ compIter H v k) :
    ∀ m, k ≤ m → ∀ x, x ∈ compIter H v m ↔ x ∈ compIter H v k := by
  intro m hm
  induction hm with
  | refl => exact fun x => Iff.rfl
  | step _ ih =>
    intro x
    have hcongr : expand H (compIter H v _) = expand H (compIter H v k) :=
      expand_congr ih
    show x ∈ expand H (compIter H v _) ↔ _
    rw [hcongr]
    exact h x

theorem exists_compIter_fix {H : Hypergraph} {v : V} (hv : v ∈ bipartiteVerts H) :
    ∃ k < (bipartiteVerts H).length,
      ∀ x, x ∈ compIter H v (k + 1) ↔ x ∈ compIter H v k := by
  by_contra hno
  push_neg at hno
  have grow : ∀ k, k < (bipartiteVerts H).length →
      (compIter H v k).toFinset ⊂ (compIter H v (k + 1)).toFinset := by
    intro k hk
    obtain ⟨x, hx⟩ := hno k hk
    have hsub : (compIter H v k).toFinset ⊆ (compIter H v (k + 1)).toFinset := by
      intro y hy
      rw [List.mem_toFinset] at hy ⊢
      exact compIter_mono hv k y hy
    have hmem : x ∈ compIter H v (k + 1) ∧ x ∉ compIter H v k := by
      rcases hx with ⟨h1, h2⟩ | ⟨h1, h2⟩
      · exact ⟨h1, h2⟩
      · exact absurd (compIter_mono hv k x h2) h1
    refine Finset.ssubset_iff_of_subset hsub |>.mpr ?_
    exact ⟨x, List.mem_toFinset.mpr hmem.1, fun hc => hmem.2 (List.mem_toFinset.mp hc)⟩
  have card_ge : ∀ k, k ≤ (bipartiteVerts H).length →
      k + 1 ≤ (compIter H v k).toFinset.card := by
    intro k
    induction k with
    | zero => intro _; simp [compIter]
    | succ k ih =>
      intro hk
      have h1 := Finset.card_lt_card (grow k (Nat.lt_of_succ_le hk))
      have h2 := ih (Nat.le_of_succ_le hk)
      omega
  have h1 := card_ge (bipartiteVerts H).length (le_refl _)
  have h2 : (compIter H v (bipartiteVerts H).length).toFinset.card ≤
      (bipartiteVerts H).length :=
    le_trans
      (Finset.card_le_card fun y hy => List.mem_toFinset.mpr
        (compIter_subset_verts hv _ y (List.mem_toFinset.mp hy)))
      (List.toFinset_card_le _)
  omega

theorem expand_componentOf {H : Hypergraph} {v : V} (hv : v ∈ bipartiteVerts H) :
    ∀ x, x ∈ expand H (componentOf H v) ↔ x ∈ componentOf H v := by
  obtain ⟨k, hk, hfix⟩ := exists_compIter_fix hv
  intro x
  have h1 := compIter_stab hfix (bipartiteVerts H).length (le_of_lt hk) x
  have h2 := compIter_stab hfix ((bipartiteVerts H).length + 1) (by omega) x
  show x ∈ compIter H v ((bipartiteVerts H).length + 1) ↔ _
  rw [h2]
  exact h1.symm

/-- Reachability in the bipartite graph. -/
def Reaches (H : Hypergraph) (u v : V) : Prop :=
  Relation.ReflTransGen (fun a b => bipAdj H a b = true) u v

theorem reaches_symm {H : Hypergraph} {u v : V} (h : Reaches H u v) : Reaches H v u :=
  Relation.ReflTransGen.symmetric
    (fun a b hab => by rw [bipAdj_symm]; exact hab) h

theorem bipAdj_mem_right {H : Hypergraph} (hw : Wf H) : ∀ {u w : V},
    bipAdj H u w = true → w ∈ bipartiteVerts H
  | V.node n, V.edge e, h => by
    simp only [bipAdj, List.any_eq_true, Bool.and_eq_true, decide_eq_true_eq] at h
    obtain ⟨p, hp, hpe, -⟩ := h
    exact List.mem_append_right _ (List.mem_map.mpr ⟨p, hp, by rw [hpe]⟩)
  | V.edge e, V.node m, h => by
    simp only [bipAdj, List.any_eq_true, Bool.and_eq_true, decide_eq_true_eq] at h
    obtain ⟨p, hp, -, hm⟩ := h
    exact List.mem_append_left _ (List.mem_map.mpr ⟨m, hw p hp m hm, rfl⟩)
  | V.node _, V.node _, h => by simp [bipAdj] at h
  | V.edge _, V.edge _, h => by simp [bipAdj] at h

theorem compIter_reaches {H : Hypergraph} {v : V} (k : Nat) :
    ∀ u ∈ compIter H v k, Reaches H v u := by
  induction k with
  | zero =>
    intro u hu
    simp only [compIter, List.mem_singleton] at hu
    exact hu ▸ Relation.ReflTransGen.refl
  | succ k ih =>
    intro u hu
    rcases (mem_expand.mp hu).2 with h | ⟨w, hw, hadj⟩
    · exact ih u h
    · exact (ih w hw).tail hadj

theorem mem_componentOf {H : Hypergraph} (hw : Wf H) {v : V}
    (hv : v ∈ bipartiteVerts H) (u : V) :
    u ∈ componentOf H v ↔ u ∈ bipartiteVerts H ∧ Reaches H v u := by
  constructor
  · intro h
    exact ⟨compIter_subset_verts hv _ u h, compIter_reaches _ u h⟩
  · rintro ⟨-, hr⟩
    induction hr with
    | refl => exact self_mem_compIter hv _
    | tail _ hbc ih =>
      exact (expand_componentOf hv _).mp
        (mem_expand.mpr ⟨bipAdj_mem_right hw hbc, Or.inr ⟨_, ih, hbc⟩⟩)

theorem componentOf_subset_verts {H : Hypergraph} {v : V}
    (hv : v ∈ bipartiteVerts H) : ∀ x ∈ componentOf H v, x ∈ bipartiteVerts H :=
  compIter_subset_verts hv _

theorem self_mem_componentOf {H : Hypergraph} {v : V}
    (hv : v ∈ bipartiteVerts H) : v ∈ componentOf H v :=
  self_mem_compIter hv _

/-- Two mutually reachable roots generate literally the same component list
(both are filters of the vertex list by equivalent membership predicates). -/
theorem componentOf_eq {H : Hypergraph} (hw : Wf H) {v : V}
    (hv : v ∈ bipartiteVerts H) {u : V} (hu : u ∈ componentOf H v) :
    componentOf H u = componentOf H v := by
  obtain ⟨huv, hr⟩ := (mem_componentOf hw hv u).mp hu
  have hpos : 0 < (bipartiteVerts H).length :=
    List.length_pos.mpr (List.ne_nil_of_mem hv)
  obtain ⟨m, hm⟩ : ∃ m, (bipartiteVerts H).length = m + 1 :=
    ⟨_, (Nat.succ_pred_eq_of_pos hpos).symm⟩
  have hstab : ∀ x : V, x ∈ bipartiteVerts H →
      ∀ w, w ∈ compIter H x m ↔ w ∈ componentOf H x := by
    intro x hx w
    obtain ⟨k, hk, hfix⟩ := exists_compIter_fix hx
    have h1 := compIter_stab hfix m (by omega) w
    have h2 := compIter_stab hfix (bipartiteVerts H).length (by omega) w
    unfold componentOf
    rw [h1, h2]
  have key : ∀ w, w ∈ compIter H u m ↔ w ∈ compIter H v m := by
    intro w
    rw [hstab u huv w, hstab v hv w, mem_componentOf hw huv w, mem_componentOf hw hv w]
    constructor
    · rintro ⟨hw1, hw2⟩; exact ⟨hw1, hr.trans hw2⟩
    · rintro ⟨hw1, hw2⟩; exact ⟨hw1, (reaches_symm hr).trans hw2⟩
  show compIter H u (bipartiteVerts H).length = compIter H v (bipartiteVerts H).length
  rw [hm]
  exact expand_congr key

theorem componentOf_nodup {H : Hypergraph} (hn : (bipartiteVerts H).Nodup)
    {v : V} (hv : v ∈ bipartiteVerts H) : (componentOf H v).Nodup := by
  have hpos : 0 < (bipartiteVerts H).length :=
    List.length_pos.mpr (List.ne_nil_of_mem hv)
  obtain ⟨m, hm⟩ : ∃ m, (bipartiteVerts H).length = m + 1 :=
    ⟨_, (Nat.succ_pred_eq_of_pos hpos).symm⟩
  show (compIter H v (bipartiteVerts H).length).Nodup
  rw [hm]
  exact hn.filter _

/-- `seen` is a union of full components. -/
def SeenClosed (H : Hypergraph) (seen : List V) : Prop :=
  ∀ u ∈ seen, u ∈ bipartiteVerts H ∧ ∀ x ∈ componentOf H u, x ∈ seen

theorem seenClosed_nil (H : Hypergraph) : SeenClosed H [] := by
  intro u hu
  simp at hu

theorem seenClosed_append {H : Hypergraph} (hw : Wf H) {seen : List V}
    (hseen : SeenClosed H seen) {v : V} (hv : v ∈ bipartiteVerts H) :
    SeenClosed H (seen ++ componentOf H v) := by
  intro u hu
  rcases List.mem_append.mp hu with h | h
  · obtain ⟨h1, h2⟩ := hseen u h
    exact ⟨h1, fun x hx => List.mem_append_left _ (h2 x hx)⟩
  · refine ⟨componentOf_subset_verts hv u h, fun x hx => List.mem_append_right _ ?_⟩
    rw [componentOf_eq hw hv h] at hx
    exact hx

theorem componentsAux_mem {H : Hypergraph} :
    ∀ {l seen : List V}, (∀ x ∈ l, x ∈ bipartiteVerts H) →
      ∀ c ∈ componentsAux H l seen, ∃ r, r ∈ bipartiteVerts H ∧ c = componentOf H r
  | [], _, _, c, hc => by simp [componentsAux] at hc
  | v :: rest, seen, hl, c, hc => by
    rw [componentsAux] at hc
    by_cases hv : v ∈ seen
    · rw [if_pos hv] at hc
      exact componentsAux_mem (fun x hx => hl x (List.mem_cons_of_mem v hx)) c hc
    · rw [if_neg hv] at hc
      rcases List.mem_cons.mp hc with hc | hc
      · exact ⟨v, hl v (List.mem_cons_self _ _), hc⟩
      · exact componentsAux_mem (fun x hx => hl x (List.mem_cons_of_mem v hx)) c hc

theorem componentsAux_cover {H : Hypergraph} :
    ∀ {l seen : List V}, (∀ x ∈ l, x ∈ bipartiteVerts H) →
      ∀ u ∈ l, u ∈ seen ∨ ∃ c ∈ componentsAux H l seen, u ∈ c
  | [], _, _, u, hu => by simp at hu
  | v :: rest, seen, hl, u, hu => by
    rw [componentsAux]
    by_cases hv : v ∈ seen
    · rw [if_pos hv]
      rcases List.mem_cons.mp hu with rfl | hu
      · exact Or.inl hv
      · exact componentsAux_cover (fun x hx => hl x (List.mem_cons_of_mem v hx)) u hu
    · rw [if_neg hv]
      rcases List.mem_cons.mp hu with rfl | hu
      · exact Or.inr ⟨componentOf H u, List.mem_cons_self _ _,
          self_mem_componentOf (hl u (List.mem_cons_self _ _))⟩
      · rcases componentsAux_cover (fun x hx => hl x (List.mem_cons_of_mem v hx)) u hu with
          h | ⟨c, hc, huc⟩
        · rcases List.mem_append.mp h with h | h
          · exact Or.inl h
          · exact Or.inr ⟨componentOf H v, (List.mem_cons_self _ _), h⟩
        · exact Or.inr ⟨c, List.mem_cons_of_mem _ hc, huc⟩

theorem componentsAux_not_seen {H : Hypergraph} (hw : Wf H) :
    ∀ {l seen : List V}, (∀ x ∈ l, x ∈ bipartiteVerts H) → SeenClosed H seen →
      ∀ c ∈ componentsAux H l seen, ∀ x ∈ c, x ∉ seen
  | [], _, _, _, c, hc => by simp [componentsAux] at hc
  | v :: rest, seen, hl, hseen, c, hc => by
    rw [componentsAux] at hc
    by_cases hv : v ∈ seen
    · rw [if_pos hv] at hc
      exact componentsAux_not_seen hw (fun x hx => hl x (List.mem_cons_of_mem v hx)) hseen c hc
    · rw [if_neg hv] at hc
      have hvv : v ∈ bipartiteVerts H := hl v (List.mem_cons_self _ _)
      rcases List.mem_cons.mp hc with hc | hc
      · subst hc
        intro x hx hxs
        obtain ⟨-, h2⟩ := hseen x hxs
        rw [componentOf_eq hw hvv hx] at h2
        exact hv (h2 v (self_mem_componentOf hvv))
      · intro x hx hxs
        exact componentsAux_not_seen hw (fun y hy => hl y (List.mem_cons_of_mem v hy))
          (seenClosed_append hw hseen hvv) c hc x hx
          (List.mem_append_left _ hxs)

theorem componentsAux_pairwise {H : Hypergraph} (hw : Wf H) :
    ∀ {l seen : List V}, (∀ x ∈ l, x ∈ bipartiteVerts H) → SeenClosed H seen →
      (componentsAux H l seen).Pairwise fun a b => ∀ x ∈ a, x ∉ b
  | [], _, _, _ => by simp [componentsAux]
  | v :: rest, seen, hl, hseen => by
    rw [componentsAux]
    by_cases hv : v ∈ seen
    · rw [if_pos hv]
      exact componentsAux_pairwise hw (fun x hx => hl x (List.mem_cons_of_mem v hx)) hseen
    · rw [if_neg hv]
      have hvv : v ∈ bipartiteVerts H := hl v (List.mem_cons_self _ _)
      refine List.Pairwise.cons ?_ ?_
      · intro b hb x hxv hxb
        exact componentsAux_not_seen hw (fun y hy => hl y (List.mem_cons_of_mem v hy))
          (seenClosed_append hw hseen hvv) b hb x hxb
          (List.mem_append_right _ hxv)
      · exact componentsAux_pairwise hw (fun y hy => hl y (List.mem_cons_of_mem v hy))
          (seenClosed_append hw hseen hvv)

theorem components_mem_root {H : Hypergraph} {c : List V} (hc : c ∈ components H) :
    ∃ r, r ∈ bipartiteVerts H ∧ c = componentOf H r :=
  componentsAux_mem (fun _ hx => hx) c hc

theorem components_subset_verts {H : Hypergraph} {c : List V}
    (hc : c ∈ components H) : ∀ x ∈ c, x ∈ bipartiteVerts H := by
  obtain ⟨r, hr, rfl⟩ := components_mem_root hc
  exact componentOf_subset_verts hr

theorem components_nonempty {H : Hypergraph} {c : List V}
    (hc : c ∈ components H) : c ≠ [] := by
  obtain ⟨r, hr, rfl⟩ := components_mem_root hc
  exact List.ne_nil_of_mem (self_mem_componentOf hr)

theorem components_pairwise {H : Hypergraph} (hw : Wf H) :
    (components H).Pairwise fun a b => ∀ x ∈ a, x ∉ b :=
  componentsAux_pairwise hw (fun _ hx => hx) (seenClosed_nil H)

/-- Distinct members of the component list are disjoint. -/
theorem components_disjoint {H : Hypergraph} (hw : Wf H) {ci cj : List V}
    (hi : ci ∈ components H) (hj : cj ∈ components H) (hne : ci ≠ cj) :
    ∀ x ∈ ci, x ∉ cj := by
  have hsymm : Symmetric fun a b : List V => ∀ x ∈ a, x ∉ b :=
    fun a b hab x hxb hxa => hab x hxa hxb
  exact (components_pairwise hw).forall hsymm hi hj hne

theorem components_nodup_each {H : Hypergraph} (hn : (bipartiteVerts H).Nodup)
    {c : List V} (hc : c ∈ components H) : c.Nodup := by
  obtain ⟨r, hr, rfl⟩ := components_mem_root hc
  exact componentOf_nodup hn hr

/-- The components partition the vertex list. -/
theorem components_flatten_perm {H : Hypergraph} (hw : Wf H)
    (hn : (bipartiteVerts H).Nodup) :
    (components H).flatten.Perm (bipartiteVerts H) := by
  rw [List.perm_ext_iff_of_nodup ?_ hn]
  · intro x
    rw [List.mem_flatten]
    constructor
    · rintro ⟨c, hc, hxc⟩
      exact components_subset_verts hc x hxc
    · intro hx
      rcases @componentsAux_cover H (bipartiteVerts H) [] (fun _ h => h) x hx with h | ⟨c, hc, hxc⟩
      · simp at h
      · exact ⟨c, hc, hxc⟩
  · rw [List.nodup_flatten]
    constructor
    · exact fun c hc => components_nodup_each hn hc
    · refine (components_pairwise hw).imp ?_
      intro a b hab x hxa hxb
      exact hab x hxa hxb

/-! ### Structure of the layout -/

theorem pySorted_small (key : V → Option Int) : ∀ {xs : List V}, xs.length ≤ 1 →
    pySorted key xs = some xs
  | [], _ => rfl
  | [_], _ => rfl

theorem pySorted_total {key : V → Option Int} {xs : List V}
    (h : ∀ x ∈ xs, (key x).isSome) :
    pySorted key xs = some (List.insertionSort (keyLe key) xs) := by
  unfold pySorted
  rw [if_neg]
  rintro ⟨-, x, hx, hnone⟩
  have hs := h x hx
  rw [hnone] at hs
  simp at hs

theorem pySorted_eq_of_isSome {key : V → Option Int} {xs : List V}
    (h : (pySorted key xs).isSome) :
    pySorted key xs = some (List.insertionSort (keyLe key) xs) := by
  by_cases hc : 2 ≤ xs.length ∧ ∃ x ∈ xs, key x = none
  · rw [pySorted, if_pos hc] at h
    simp at h
  · rw [pySorted, if_neg hc]

/-- Every component's two subset sorts succeed. -/
def sortsOk (key : List V → V → Option Int) (cs : List (List V)) : Prop :=
  ∀ ci ∈ cs,
    (pySorted (key ci) (nodesOf ci)).isSome ∧ (pySorted (key ci) (edgesOf ci)).isSome

/-- The per-component blocks of the layout: closed form of `layoutGo`. -/
def blocks (spacing width : ℚ) (flip : Bool) (key : List V → V → Option Int) :
    List (List V) → ℚ → List (List (V × ℚ × ℚ))
  | [], _ => []
  | ci :: rest, offset =>
    (stack 0 offset (compHeight ci) flip
        (List.insertionSort (keyLe (key ci)) (nodesOf ci)) ++
      stack width offset (compHeight ci) flip
        (List.insertionSort (keyLe (key ci)) (edgesOf ci)))
      :: blocks spacing width flip key rest (offset + (compHeight ci : ℚ) + spacing)

theorem layoutGo_eq_blocks {spacing width : ℚ} {flip : Bool}
    {key : List V → V → Option Int} :
    ∀ {cs : List (List V)}, sortsOk key cs → ∀ (offset : ℚ) (pos0 : List (V × ℚ × ℚ)),
      layoutGo spacing width flip key cs offset pos0 =
        some (pos0 ++ (blocks spacing width flip key cs offset).flatten)
  | [], _, offset, pos0 => by simp [layoutGo, blocks]
  | ci :: rest, h, offset, pos0 => by
    obtain ⟨h1, h2⟩ := h ci (List.mem_cons_self _ _)
    have hrest : sortsOk key rest := fun c hc => h c (List.mem_cons_of_mem _ hc)
    rw [layoutGo, pySorted_eq_of_isSome h1, pySorted_eq_of_isSome h2]
    show layoutGo spacing width flip key rest _ _ = _
    rw [layoutGo_eq_blocks hrest]
    rw [blocks, List.flatten_cons]
    simp only [List.length_insertionSort]
    rw [show max (nodesOf ci).length (edgesOf ci).length = compHeight ci from rfl]
    simp [List.append_assoc]

theorem layoutGo_isSome {spacing width : ℚ} {flip : Bool}
    {key : List V → V → Option Int} {cs : List (List V)} (h : sortsOk key cs)
    (offset : ℚ) (pos0 : List (V × ℚ × ℚ)) :
    ∃ pos, layoutGo spacing width flip key cs offset pos0 = some pos :=
  ⟨_, layoutGo_eq_blocks h offset pos0⟩

theorem sortsOk_of_layoutGo {spacing width : ℚ} {flip : Bool}
    {key : List V → V → Option Int} :
    ∀ {cs : List (List V)} {offset : ℚ} {pos0 pos : List (V × ℚ × ℚ)},
      layoutGo spacing width flip key cs offset pos0 = some pos → sortsOk key cs
  | [], _, _, _, _ => fun c hc => by simp at hc
  | ci :: rest, offset, pos0, pos, h => by
    rw [layoutGo] at h
    rcases h1 : pySorted (key ci) (nodesOf ci) with _ | sv
    · rw [h1] at h
      exact absurd h (by simp)
    · rcases h2 : pySorted (key ci) (edgesOf ci) with _ | se
      · rw [h1, h2] at h
        exact absurd h (by simp)
      · rw [h1, h2] at h
        intro c hc
        rcases List.mem_cons.mp hc with rfl | hc
        · exact ⟨by rw [h1]; rfl, by rw [h2]; rfl⟩
        · exact sortsOk_of_layoutGo h c hc

theorem stackGo_eq_map (x offset : ℚ) (height size : Nat) (flip : Bool) :
    ∀ (vs : List V) (i : Nat),
      stackGo x offset height size flip i vs =
        (List.range vs.length).map fun j =>
          (vs.getD j (V.node 0), specItemPos x (i + j) offset height size flip)
  | [], i => by simp [stackGo]
  | v :: vs, i => by
    rw [stackGo, stackGo_eq_map x offset height size flip vs (i + 1)]
    rw [List.length_cons, List.range_succ_eq_map, List.map_cons, List.map_map]
    refine congrArg₂ List.cons ?_ ?_
    · cases flip <;> simp [specItemPos, stackCoord]
    · refine List.map_congr_left fun j hj => ?_
      have hidx : i + 1 + j = i + (j + 1) := by omega
      simp only [Function.comp_apply, List.getD_cons_succ, hidx]

theorem stack_eq_specStack (x offset : ℚ) (height : Nat) (flip : Bool) (vs : List V) :
    stack x offset height flip vs = specStack x offset height flip vs := by
  unfold stack specStack
  rw [stackGo_eq_map]
  exact List.map_congr_left fun j _ => by rw [Nat.zero_add]

theorem blocks_length (spacing width : ℚ) (flip : Bool)
    (key : List V → V → Option Int) :
    ∀ (cs : List (List V)) (offset : ℚ),
      (blocks spacing width flip key cs offset).length = cs.length
  | [], _ => rfl
  | ci :: rest, offset => by
    rw [blocks, List.length_cons, List.length_cons, blocks_length]

theorem offsetAt_cons_succ (spacing : ℚ) (ci : List V) (cs : List (List V)) (k : Nat) :
    offsetAt spacing (ci :: cs) (k + 1) =
      ((compHeight ci : ℚ) + spacing) + offsetAt spacing cs k := by
  unfold offsetAt
  rw [List.take_succ_cons, List.map_cons, List.sum_cons]

theorem offsetAt_zero (spacing : ℚ) (cs : List (List V)) :
    offsetAt spacing cs 0 = 0 := by
  unfold offsetAt
  rw [List.take_zero, List.map_nil, List.sum_nil]

theorem blocks_getD (spacing width : ℚ) (flip : Bool)
    (key : List V → V → Option Int) :
    ∀ (cs : List (List V)) (offset : ℚ) (k : Nat), k < cs.length →
      (blocks spacing width flip key cs offset).getD k [] =
        specComponentBlock width flip (key (cs.getD k [])) (cs.getD k [])
          (offset + offsetAt spacing cs k)
  | [], _, k, hk => by simp at hk
  | ci :: rest, offset, 0, _ => by
    rw [blocks]
    simp only [List.getD_cons_zero]
    rw [specComponentBlock, stack_eq_specStack, stack_eq_specStack,
      offsetAt_zero, add_zero]
  | ci :: rest, offset, k + 1, hk => by
    rw [blocks]
    simp only [List.getD_cons_succ]
    rw [blocks_getD spacing width flip key rest _ k (by simpa using hk),
      offsetAt_cons_succ]
    ring_nf

theorem stackGo_map_fst (x offset : ℚ) (height size : Nat) (flip : Bool) :
    ∀ (vs : List V) (i : Nat),
      (stackGo x offset height size flip i vs).map Prod.fst = vs
  | [], _ => rfl
  | v :: vs, i => by
    rw [stackGo, List.map_cons, stackGo_map_fst]

theorem stack_map_fst (x offset : ℚ) (height : Nat) (flip : Bool) (vs : List V) :
    (stack x offset height flip vs).map Prod.fst = vs :=
  stackGo_map_fst x offset height vs.length flip vs 0

theorem edgesOf_eq_not_nodes (ci : List V) :
    edgesOf ci = ci.filter fun v => !(bipartiteTag v == 0) := by
  unfold edgesOf
  refine List.filter_congr fun v _ => ?_
  cases v <;> rfl

theorem nodes_edges_perm (ci : List V) : (nodesOf ci ++ edgesOf ci).Perm ci := by
  rw [edgesOf_eq_not_nodes]
  exact List.filter_append_perm _ ci

theorem blocks_flatten_keys_perm (spacing width : ℚ) (flip : Bool)
    (key : List V → V → Option Int) :
    ∀ (cs : List (List V)) (offset : ℚ),
      ((blocks spacing width flip key cs offset).flatten.map Prod.fst).Perm cs.flatten
  | [], _ => by simp [blocks]
  | ci :: rest, offset => by
    rw [blocks, List.flatten_cons, List.map_append, List.flatten_cons]
    refine List.Perm.append ?_ (blocks_flatten_keys_perm spacing width flip key rest _)
    rw [List.map_append, stack_map_fst, stack_map_fst]
    exact ((List.perm_insertionSort _ _).append (List.perm_insertionSort _ _)).trans
      (nodes_edges_perm ci)

theorem secondary_specItemPos (x : ℚ) (i : Nat) (offset : ℚ) (height size : Nat)
    (flip : Bool) :
    secondary flip (specItemPos x i offset height size flip) =
      (i : ℚ) + offset + ((height : ℚ) - (size : ℚ)) / 2 := by
  cases flip <;> rfl

theorem specStack_fst_mem {x offset : ℚ} {height : Nat} {flip : Bool} {vs : List V}
    {v : V} {p : ℚ × ℚ} (h : (v, p) ∈ specStack x offset height flip vs) : v ∈ vs := by
  unfold specStack at h
  rw [List.mem_map] at h
  obtain ⟨i, hi, heq⟩ := h
  rw [List.mem_range] at hi
  rw [Prod.mk.injEq] at heq
  obtain ⟨hv, -⟩ := heq
  rw [← hv]
  rw [List.getD_eq_getElem vs (V.node 0) hi]
  exact List.getElem_mem hi

theorem specStack_secondary_bound {x offset : ℚ} {height : Nat} {flip : Bool}
    {vs : List V} (hsz : vs.length ≤ height) {v : V} {p : ℚ × ℚ}
    (h : (v, p) ∈ specStack x offset height flip vs) :
    offset ≤ secondary flip p ∧ secondary flip p < offset + (height : ℚ) := by
  unfold specStack at h
  rw [List.mem_map] at h
  obtain ⟨i, hi, heq⟩ := h
  rw [List.mem_range] at hi
  rw [Prod.mk.injEq] at heq
  obtain ⟨-, hp⟩ := heq
  rw [← hp, secondary_specItemPos]
  have h1 : (i : ℚ) + 1 ≤ (vs.length : ℚ) := by exact_mod_cast hi
  have h2 : (vs.length : ℚ) ≤ (height : ℚ) := by exact_mod_cast hsz
  have h3 : (0 : ℚ) ≤ (i : ℚ) := by positivity
  constructor
  · linarith
  · linarith

theorem specComponentBlock_fst_mem {width : ℚ} {flip : Bool} {key : V → Option Int}
    {ci : List V} {offset : ℚ} {v : V} {p : ℚ × ℚ}
    (h : (v, p) ∈ specComponentBlock width flip key ci offset) : v ∈ ci := by
  rcases List.mem_append.mp h with h | h
  · have hv := specStack_fst_mem h
    rw [(List.perm_insertionSort _ _).mem_iff] at hv
    exact List.mem_of_mem_filter hv
  · have hv := specStack_fst_mem h
    rw [(List.perm_insertionSort _ _).mem_iff] at hv
    exact List.mem_of_mem_filter hv

theorem specComponentBlock_secondary_bound {width : ℚ} {flip : Bool}
    {key : V → Option Int} {ci : List V} {offset : ℚ} {v : V} {p : ℚ × ℚ}
    (h : (v, p) ∈ specComponentBlock width flip key ci offset) :
    offset ≤ secondary flip p ∧
      secondary flip p < offset + (compHeight ci : ℚ) := by
  rcases List.mem_append.mp h with h | h
  · exact specStack_secondary_bound
      (by rw [List.length_insertionSort]; exact Nat.le_max_left _ _) h
  · exact specStack_secondary_bound
      (by rw [List.length_insertionSort]; exact Nat.le_max_right _ _) h

theorem offsetAt_succ_eq (spacing : ℚ) :
    ∀ (cs : List (List V)) (k : Nat), k < cs.length →
      offsetAt spacing cs (k + 1) =
        offsetAt spacing cs k + ((compHeight (cs.getD k []) : ℚ) + spacing)
  | [], k, hk => by simp at hk
  | ci :: rest, 0, _ => by
    rw [offsetAt_cons_succ, offsetAt_zero, offsetAt_zero]
    simp only [List.getD_cons_zero]
    ring
  | ci :: rest, k + 1, hk => by
    rw [offsetAt_cons_succ, offsetAt_succ_eq spacing rest k (by simpa using hk),
      offsetAt_cons_succ]
    simp only [List.getD_cons_succ]
    ring

theorem offsetAt_mono {spacing : ℚ} (hs : 0 ≤ spacing) (cs : List (List V))
    {k m : Nat} (hkm : k ≤ m) (hm : m ≤ cs.length) :
    offsetAt spacing cs k ≤ offsetAt spacing cs m := by
  induction hkm with
  | refl => exact le_refl _
  | step h ih =>
    rename_i m'
    have hm' : m' < cs.length := by omega
    have hh : (0 : ℚ) ≤ (compHeight (cs.getD m' []) : ℚ) := by positivity
    have hih := ih (by omega)
    linarith [offsetAt_succ_eq spacing cs m' hm']

theorem offsetAt_add_height_le {spacing : ℚ} (hs : 0 ≤ spacing)
    (cs : List (List V)) {k m : Nat} (hkm : k < m) (hm : m ≤ cs.length) :
    offsetAt spacing cs k + (compHeight (cs.getD k []) : ℚ) ≤
      offsetAt spacing cs m := by
  have h1 := offsetAt_succ_eq spacing cs k (by omega)
  have h2 := offsetAt_mono hs cs (Nat.succ_le_of_lt hkm) hm
  linarith

theorem mem_flatten_getD {α : Type} {L : List (List α)} {a : α}
    (h : a ∈ L.flatten) : ∃ k, k < L.length ∧ a ∈ L.getD k [] := by
  rw [List.mem_flatten] at h
  obtain ⟨b, hb, hab⟩ := h
  obtain ⟨k, hk, hkb⟩ := List.mem_iff_getElem.mp hb
  refine ⟨k, hk, ?_⟩
  rw [List.getD_eq_getElem _ _ hk, hkb]
  exact hab

/-! ### Keys, totality, and the flip relation -/

theorem bipartiteVerts_nodup {H : Hypergraph} (hn : H.nodes.Nodup)
    (he : (H.edges.map Prod.fst).Nodup) : (bipartiteVerts H).Nodup := by
  unfold bipartiteVerts
  rw [List.nodup_append]
  refine ⟨hn.map fun a b hab => V.node.inj hab, ?_, ?_⟩
  · have hmm : H.edges.map (fun p => V.edge p.1) = (H.edges.map Prod.fst).map V.edge := by
      rw [List.map_map]
      rfl
    rw [hmm]
    exact he.map fun a b hab => V.edge.inj hab
  · intro a ha hb
    obtain ⟨n, -, rfl⟩ := List.mem_map.mp ha
    obtain ⟨p, -, hpe⟩ := List.mem_map.mp hb
    exact V.noConfusion hpe

theorem enumPairs_map_fst {α : Type} : ∀ (i : Nat) (l : List α),
    (enumPairs i l).map Prod.fst = l
  | _, [] => rfl
  | i, v :: vs => by rw [enumPairs, List.map_cons, enumPairs_map_fst]

theorem pyDictGet_isSome_iff {α β : Type} [DecidableEq α] (l : List (α × β)) (a : α) :
    (pyDictGet l a).isSome ↔ ∃ p ∈ l, p.1 = a := by
  simp [pyDictGet, List.find?_isSome, List.mem_reverse]

theorem componentKey_none_isSome {specOrd : List V → List V} {ci : List V} {v : V}
    (h : v ∈ specOrd ci) : (componentKey none specOrd ci v).isSome := by
  show (pyDictGet (enumPairs 0 (specOrd ci)) v).isSome
  rw [pyDictGet_isSome_iff]
  have hv : v ∈ (enumPairs 0 (specOrd ci)).map Prod.fst := by
    rw [enumPairs_map_fst]; exact h
  obtain ⟨p, hp, hpv⟩ := List.mem_map.mp hv
  exact ⟨p, hp, hpv⟩

theorem componentKey_some_node {no : List (Nat × Int)} {specOrd : List V → List V}
    {ci : List V} (n : Nat) :
    componentKey (some no) specOrd ci (V.node n) = pyDictGet no n := rfl

theorem componentKey_some_edge_isSome {no : List (Nat × Int)}
    {specOrd : List V → List V} {ci : List V} {e : String}
    (h : e ∈ edgeNamesOf ci) :
    (componentKey (some no) specOrd ci (V.edge e)).isSome := by
  show (pyDictGet (enumPairs 0 (edgeNamesOf ci)) e).isSome
  rw [pyDictGet_isSome_iff]
  have hv : e ∈ (enumPairs 0 (edgeNamesOf ci)).map Prod.fst := by
    rw [enumPairs_map_fst]; exact h
  obtain ⟨p, hp, hpv⟩ := List.mem_map.mp hv
  exact ⟨p, hp, hpv⟩

theorem mem_nodesOf {ci : List V} {v : V} (h : v ∈ nodesOf ci) :
    ∃ n, v = V.node n ∧ v ∈ ci := by
  obtain ⟨hv, htag⟩ := List.mem_filter.mp h
  cases v with
  | node n => exact ⟨n, rfl, hv⟩
  | edge e => simp [bipartiteTag] at htag

theorem mem_edgesOf {ci : List V} {v : V} (h : v ∈ edgesOf ci) :
    ∃ e, v = V.edge e ∧ e ∈ edgeNamesOf ci := by
  obtain ⟨hv, htag⟩ := List.mem_filter.mp h
  cases v with
  | node n => simp [bipartiteTag] at htag
  | edge e =>
    refine ⟨e, rfl, ?_⟩
    unfold edgeNamesOf
    exact List.mem_filterMap.mpr ⟨V.edge e, hv, rfl⟩

theorem node_mem_bipartiteVerts {H : Hypergraph} {n : Nat} :
    V.node n ∈ bipartiteVerts H ↔ n ∈ H.nodes := by
  unfold bipartiteVerts
  rw [List.mem_append]
  constructor
  · rintro (h | h)
    · obtain ⟨m, hm, hmn⟩ := List.mem_map.mp h
      exact V.node.inj hmn ▸ hm
    · obtain ⟨p, -, hpe⟩ := List.mem_map.mp h
      exact absurd hpe (by simp)
  · intro h
    exact Or.inl (List.mem_map.mpr ⟨n, h, rfl⟩)

theorem pySorted_isSome_of_total {key : V → Option Int} {xs : List V}
    (h : ∀ x ∈ xs, (key x).isSome) : (pySorted key xs).isSome := by
  rw [pySorted_total h]
  rfl

/-- With a rank for every node of `H`, every sort in the layout succeeds:
edges always get a synthetic rank from their discovery order. -/
theorem sortsOk_of_total_nodeorder {H : Hypergraph} {no : List (Nat × Int)}
    {specOrd : List V → List V}
    (hno : ∀ n ∈ H.nodes, (pyDictGet no n).isSome) :
    sortsOk (componentKey (some no) specOrd) (components H) := by
  intro ci hci
  constructor
  · apply pySorted_isSome_of_total
    intro v hv
    obtain ⟨n, rfl, hvci⟩ := mem_nodesOf hv
    have hn : n ∈ H.nodes :=
      node_mem_bipartiteVerts.mp (components_subset_verts hci _ hvci)
    rw [componentKey_some_node]
    exact hno n hn
  · apply pySorted_isSome_of_total
    intro v hv
    obtain ⟨e, rfl, he⟩ := mem_edgesOf hv
    exact componentKey_some_edge_isSome he

/-- With a spectral ordering that covers every component of size at least 2,
every sort in the layout succeeds: components of size at most 1 have
singleton or empty subsets, which are sorted without any rank comparison. -/
theorem sortsOk_of_specOrd {H : Hypergraph} {specOrd : List V → List V}
    (hso : ∀ ci ∈ components H, 2 ≤ ci.length → ∀ v ∈ ci, v ∈ specOrd ci) :
    sortsOk (componentKey none specOrd) (components H) := by
  intro ci hci
  by_cases hlen : 2 ≤ ci.length
  · constructor
    · apply pySorted_isSome_of_total
      intro v hv
      exact componentKey_none_isSome (hso ci hci hlen v (List.mem_of_mem_filter hv))
    · apply pySorted_isSome_of_total
      intro v hv
      exact componentKey_none_isSome (hso ci hci hlen v (List.mem_of_mem_filter hv))
  · have h1 : (nodesOf ci).length ≤ 1 :=
      le_trans (List.length_filter_le _ _) (by omega)
    have h2 : (edgesOf ci).length ≤ 1 :=
      le_trans (List.length_filter_le _ _) (by omega)
    exact ⟨by rw [pySorted_small _ h1]; rfl, by rw [pySorted_small _ h2]; rfl⟩

theorem stackGo_flip (x offset : ℚ) (height size : Nat) :
    ∀ (vs : List V) (i : Nat),
      stackGo x offset height size true i vs =
        (stackGo x offset height size false i vs).map fun q => (q.1, q.2.2, q.2.1)
  | [], _ => rfl
  | v :: vs, i => by
    rw [stackGo, stackGo, List.map_cons, stackGo_flip]
    rfl

theorem stack_flip (x offset : ℚ) (height : Nat) (vs : List V) :
    stack x offset height true vs =
      (stack x offset height false vs).map fun q => (q.1, q.2.2, q.2.1) :=
  stackGo_flip x offset height vs.length vs 0

theorem layoutGo_flip {spacing width : ℚ} {key : List V → V → Option Int} :
    ∀ (cs : List (List V)) (offset : ℚ) (pos0 : List (V × ℚ × ℚ)),
      layoutGo spacing width true key cs offset
          (pos0.map fun q => (q.1, q.2.2, q.2.1)) =
        (layoutGo spacing width false key cs offset pos0).map
          (List.map fun q => (q.1, q.2.2, q.2.1))
  | [], _, pos0 => rfl
  | ci :: rest, offset, pos0 => by
    rw [layoutGo, layoutGo]
    rcases h1 : pySorted (key ci) (nodesOf ci) with _ | sv
    · rfl
    · rcases h2 : pySorted (key ci) (edgesOf ci) with _ | se
      · rfl
      · show layoutGo spacing width true key rest _ _ = _
        rw [stack_flip, stack_flip, ← List.map_append, ← List.map_append]
        exact layoutGo_flip rest _ _

theorem layout_flip (H : Hypergraph) (spacing width : ℚ)
    (nodeorder : Option (List (Nat × Int))) (specOrd : List V → List V) :
    layout_two_column H spacing width true nodeorder specOrd =
      (layout_two_column H spacing width false nodeorder specOrd).map
        (List.map fun q => (q.1, q.2.2, q.2.1)) := by
  unfold layout_two_column
  have h := @layoutGo_flip spacing width (componentKey nodeorder specOrd)
    (components H) 0 []
  simpa using h

/-! ### The renderer: segments and membership pairs -/

theorem segmentsOf_total {pos : List (V × ℚ × ℚ)} :
    ∀ {ps : List (Nat × String)},
      (∀ p ∈ ps, (pyDictGet pos (V.node p.1)).isSome ∧
        (pyDictGet pos (V.edge p.2)).isSome) →
      ∃ segs, segmentsOf pos ps = some segs ∧ segs.length = ps.length ∧
        ∀ k, k < ps.length →
          pyDictGet pos (V.node ((ps.getD k (0, "")).1)) =
              some ((segs.getD k ((0, 0), 0, 0)).1) ∧
            pyDictGet pos (V.edge ((ps.getD k (0, "")).2)) =
              some ((segs.getD k ((0, 0), 0, 0)).2)
  | [], _ => ⟨[], rfl, rfl, fun k hk => by simp at hk⟩
  | p :: ps, h => by
    obtain ⟨h1, h2⟩ := h p (List.mem_cons_self _ _)
    obtain ⟨a, ha⟩ := Option.isSome_iff_exists.mp h1
    obtain ⟨b, hb⟩ := Option.isSome_iff_exists.mp h2
    obtain ⟨segs, hsegs, hlen, hidx⟩ :=
      segmentsOf_total fun q hq => h q (List.mem_cons_of_mem _ hq)
    refine ⟨(a, b) :: segs, ?_, by simp [hlen], ?_⟩
    · rw [segmentsOf, ha, hb, hsegs]
    · intro k hk
      cases k with
      | zero => simpa using ⟨ha, hb⟩
      | succ k =>
        simpa using hidx k (by simpa using hk)

theorem count_map_pair (e : String) (l : List Nat) (n : Nat) :
    (l.map fun m => (m, e)).count (n, e) = l.count n := by
  induction l with
  | nil => rfl
  | cons m l ih => simp [List.count_cons, ih, Prod.ext_iff]

theorem count_map_pair_ne {e f : String} (hne : f ≠ e) (l : List Nat) (n : Nat) :
    (l.map fun m => (m, f)).count (n, e) = 0 := by
  rw [List.count_eq_zero]
  intro hmem
  obtain ⟨m, -, hme⟩ := List.mem_map.mp hmem
  exact hne (congrArg Prod.snd hme)

/-- If hyperedge names are unique and no hyperedge lists a node twice, each
(node, hyperedge) pair occurs in the pair list exactly once if it is a
membership and otherwise not at all. -/
theorem pairsOf_count :
    ∀ {es : List (String × List Nat)}, (es.map Prod.fst).Nodup →
      (∀ p ∈ es, p.2.Nodup) → ∀ (n : Nat) (e : String),
      (pairsOf es).count (n, e) = if memPairIn es n e then 1 else 0
  | [], _, _, n, e => by simp [pairsOf, memPairIn]
  | p :: es, hnd, hmem, n, e => by
    rw [pairsOf, List.count_append]
    have hnd' : (es.map Prod.fst).Nodup := by
      rw [List.map_cons] at hnd
      exact hnd.of_cons
    have hp1 : p.1 ∉ es.map Prod.fst := by
      rw [List.map_cons] at hnd
      exact (List.nodup_cons.mp hnd).1
    rw [pairsOf_count hnd' (fun q hq => hmem q (List.mem_cons_of_mem _ hq)) n e]
    by_cases hpe : p.1 = e
    · rw [← hpe, count_map_pair]
      have htail : ¬ memPairIn es n p.1 := by
        rintro ⟨q, hq, hq1, -⟩
        exact hp1 (hq1 ▸ List.mem_map.mpr ⟨q, hq, rfl⟩)
      rw [if_neg htail]
      by_cases hn : n ∈ p.2
      · have hhead : memPairIn (p :: es) n p.1 :=
          ⟨p, List.mem_cons_self _ _, rfl, hn⟩
        rw [if_pos hhead, List.count_eq_one_of_mem (hmem p (List.mem_cons_self _ _)) hn]
      · have hhead : ¬ memPairIn (p :: es) n p.1 := by
          rintro ⟨q, hq, hq1, hq2⟩
          rcases List.mem_cons.mp hq with rfl | hq
          · exact hn hq2
          · exact hp1 (hq1 ▸ List.mem_map.mpr ⟨q, hq, rfl⟩)
        rw [if_neg hhead, List.count_eq_zero.mpr hn]
    · rw [count_map_pair_ne hpe, Nat.zero_add]
      have hiff : memPairIn (p :: es) n e ↔ memPairIn es n e := by
        constructor
        · rintro ⟨q, hq, hq1, hq2⟩
          rcases List.mem_cons.mp hq with rfl | hq
          · exact absurd hq1 hpe
          · exact ⟨q, hq, hq1, hq2⟩
        · rintro ⟨q, hq, hq1, hq2⟩
          exact ⟨q, List.mem_cons_of_mem _ hq, hq1, hq2⟩
      rw [if_congr hiff rfl rfl]

/-! ### Core consequences used by several claims -/

theorem blocks_flatten_eq_specLayout (spacing width : ℚ) (flip : Bool)
    (key : List V → V → Option Int) (cs : List (List V)) :
    (blocks spacing width flip key cs 0).flatten =
      specLayout spacing width flip key cs := by
  unfold specLayout
  congr 1
  refine List.ext_getElem ?_ ?_
  · rw [blocks_length, List.length_map, List.length_range]
  · intro i h1 h2
    have hi : i < cs.length := by rwa [blocks_length] at h1
    have hgd := blocks_getD spacing width flip key cs 0 i hi
    rw [zero_add] at hgd
    rw [← List.getD_eq_getElem _ [] h1, hgd, List.getElem_map, List.getElem_range]

/-- A successful layout run equals the empty accumulator followed by the
blocks, i.e. the spec formula. -/
theorem layout_some_eq_specLayout {H : Hypergraph} {spacing width : ℚ}
    {flip : Bool} {nodeorder : Option (List (Nat × Int))}
    {specOrd : List V → List V} {pos : List (V × ℚ × ℚ)}
    (hpos : layout_two_column H spacing width flip nodeorder specOrd = some pos) :
    pos = specLayout spacing width flip (componentKey nodeorder specOrd)
      (components H) := by
  have hok : sortsOk (componentKey nodeorder specOrd) (components H) :=
    sortsOk_of_layoutGo hpos
  have h2 : layout_two_column H spacing width flip nodeorder specOrd =
      some ((blocks spacing width flip (componentKey nodeorder specOrd)
        (components H) 0).flatten) := by
    show layoutGo _ _ _ _ _ _ _ = _
    rw [layoutGo_eq_blocks hok 0 [], List.nil_append]
  rw [hpos] at h2
  rw [Option.some.inj h2]
  exact blocks_flatten_eq_specLayout spacing width flip _ (components H)

/-- A successful layout run's keys: one entry per vertex. -/
theorem layout_count_keys {H : Hypergraph} {spacing width : ℚ} {flip : Bool}
    {nodeorder : Option (List (Nat × Int))} {specOrd : List V → List V}
    {pos : List (V × ℚ × ℚ)} (hw : Wf H) (hn : H.nodes.Nodup)
    (he : (H.edges.map Prod.fst).Nodup)
    (hpos : layout_two_column H spacing width flip nodeorder specOrd = some pos) :
    ∀ x : V, (pos.map Prod.fst).count x =
      if x ∈ bipartiteVerts H then 1 else 0 := by
  have hok : sortsOk (componentKey nodeorder specOrd) (components H) :=
    sortsOk_of_layoutGo hpos
  have h2 : layout_two_column H spacing width flip nodeorder specOrd =
      some ((blocks spacing width flip (componentKey nodeorder specOrd)
        (components H) 0).flatten) := by
    show layoutGo _ _ _ _ _ _ _ = _
    rw [layoutGo_eq_blocks hok 0 [], List.nil_append]
  rw [hpos] at h2
  rw [Option.some.inj h2]
  intro x
  have hperm : (((blocks spacing width flip (componentKey nodeorder specOrd)
      (components H) 0).flatten.map Prod.fst)).Perm (bipartiteVerts H) :=
    (blocks_flatten_keys_perm _ _ _ _ _ _).trans
      (components_flatten_perm hw (bipartiteVerts_nodup hn he))
  rw [hperm.count_eq]
  by_cases hx : x ∈ bipartiteVerts H
  · rw [if_pos hx]
    exact List.count_eq_one_of_mem (bipartiteVerts_nodup hn he) hx
  · rw [if_neg hx]
    exact List.count_eq_zero.mpr hx

/-! ### Concrete instances used by witnesses -/

/-- The spec's concrete scenario: two disjoint singleton hyperedges. -/
def Hpair : Hypergraph := ⟨[1, 2], [("e1", [1]), ("e2", [2])]⟩

/-- One hyperedge on two nodes (used for the partial-nodeorder failure). -/
def Hpartial : Hypergraph := ⟨[1, 2], [("e", [1, 2])]⟩

/-- One hyperedge on two nodes plus an isolated third node. -/
def Hiso : Hypergraph := ⟨[1, 2, 3], [("e", [1, 2])]⟩

/-- The identity ordering, standing in for the external spectral ordering on
concrete runs (networkx returns components of size at most 2 as given). -/
def idOrd : List V → List V := fun ci => ci

theorem Hpair_components :
    components Hpair = [[V.node 1, V.edge "e1"], [V.node 2, V.edge "e2"]] := by
  decide

theorem Hpair_layout :
    layout_two_column Hpair 0 1 false none idOrd =
      some [(V.node 1, 0, 0), (V.edge "e1", 1, 0),
        (V.node 2, 0, 1), (V.edge "e2", 1, 1)] := by
  have h1 : pySorted (componentKey none idOrd [V.node 1, V.edge "e1"])
      (nodesOf [V.node 1, V.edge "e1"]) = some [V.node 1] := by decide
  have h2 : pySorted (componentKey none idOrd [V.node 1, V.edge "e1"])
      (edgesOf [V.node 1, V.edge "e1"]) = some [V.edge "e1"] := by decide
  have h3 : pySorted (componentKey none idOrd [V.node 2, V.edge "e2"])
      (nodesOf [V.node 2, V.edge "e2"]) = some [V.node 2] := by decide
  have h4 : pySorted (componentKey none idOrd [V.node 2, V.edge "e2"])
      (edgesOf [V.node 2, V.edge "e2"]) = some [V.edge "e2"] := by decide
  rw [layout_two_column, Hpair_components]
  simp only [layoutGo, h1, h2, h3, h4]
  simp [stack, stackGo, stackCoord]

instance (H : Hypergraph) (n : Nat) (e : String) : Decidable (memPair H n e) := by
  unfold memPair
  infer_instance

/-! ### The claims -/

/-- C1: for every hypergraph (with collision-free identifiers, the invariant
the spec assigns to the identifier scheme), a position map returned by
`layout_two_column` contains exactly one entry for every node identifier and
every hyperedge identifier present in `H`, and no other keys. -/
theorem layout_pos_keys_exact (H : Hypergraph) (spacing width : ℚ) (flip : Bool)
    (nodeorder : Option (List (Nat × Int))) (specOrd : List V → List V)
    (pos : List (V × ℚ × ℚ)) (hw : Wf H) (hn : H.nodes.Nodup)
    (he : (H.edges.map Prod.fst).Nodup)
    (hpos : layout_two_column H spacing width flip nodeorder specOrd = some pos) :
    ∀ x : V, (pos.map Prod.fst).count x =
      if x ∈ bipartiteVerts H then 1 else 0 :=
  layout_count_keys hw hn he hpos

/-- Witness for C1 at the concrete two-component hypergraph. -/
theorem layout_pos_keys_exact_witness :
    ∃ pos, layout_two_column Hpair 0 1 false none idOrd = some pos ∧
      ∀ x : V, (pos.map Prod.fst).count x =
        if x ∈ bipartiteVerts Hpair then 1 else 0 :=
  ⟨_, Hpair_layout,
    layout_pos_keys_exact Hpair 0 1 false none idOrd _ (by decide) (by decide)
      (by decide) Hpair_layout⟩

/-- C2: every successful layout equals the spec formula — per component the
sorted node subset at primary coordinate 0 and the sorted hyperedge subset
at primary coordinate `width`, the item at sorted index `i` at stacking
coordinate `i + offset + (height - size)/2` with `height` the component's
max subset count, the offset of component `k` being the partial sum of
`height + spacing` over prior components; and for the hypergraph of two
disjoint singleton hyperedges the second component's offset equals the first
component's height (= 1) plus the spacing. -/
theorem layout_eq_specLayout :
    (∀ (H : Hypergraph) (spacing width : ℚ) (flip : Bool)
        (nodeorder : Option (List (Nat × Int))) (specOrd : List V → List V)
        (pos : List (V × ℚ × ℚ)),
      layout_two_column H spacing width flip nodeorder specOrd = some pos →
        pos = specLayout spacing width flip (componentKey nodeorder specOrd)
          (components H)) ∧
    (∀ spacing : ℚ, compHeight ((components Hpair).getD 0 []) = 1 ∧
      offsetAt spacing (components Hpair) 1 =
        (compHeight ((components Hpair).getD 0 []) : ℚ) + spacing) := by
  constructor
  · intro H spacing width flip nodeorder specOrd pos hpos
    exact layout_some_eq_specLayout hpos
  · intro spacing
    rw [Hpair_components]
    refine ⟨by decide, ?_⟩
    show offsetAt spacing [[V.node 1, V.edge "e1"], [V.node 2, V.edge "e2"]] 1 = _
    have h1 : compHeight [V.node 1, V.edge "e1"] = 1 := by decide
    unfold offsetAt
    simp only [List.take_succ_cons, List.take_zero, List.map_cons, List.map_nil,
      List.sum_cons, List.sum_nil, List.getD_cons_zero, h1]
    norm_num

/-- Witness for C2 at the concrete two-component hypergraph. -/
theorem layout_eq_specLayout_witness :
    ∃ pos, layout_two_column Hpair 0 1 false none idOrd = some pos ∧
      pos = specLayout 0 1 false (componentKey none idOrd) (components Hpair) :=
  ⟨_, Hpair_layout,
    layout_eq_specLayout.1 Hpair 0 1 false none idOrd _ Hpair_layout⟩

/-- C3: for non-negative spacing, entries of vertices lying in different
connected components never share a coordinate on the stacking axis: the
running offset grows by at least each component's height before the next
component is placed, so the components' stacking ranges are disjoint. -/
theorem layout_components_no_overlap (H : Hypergraph) (spacing width : ℚ)
    (flip : Bool) (nodeorder : Option (List (Nat × Int)))
    (specOrd : List V → List V) (pos : List (V × ℚ × ℚ)) (hw : Wf H)
    (hs : 0 ≤ spacing)
    (hpos : layout_two_column H spacing width flip nodeorder specOrd = some pos)
    {ci cj : List V} (hci : ci ∈ components H) (hcj : cj ∈ components H)
    (hne : ci ≠ cj) {u v : V} (hu : u ∈ ci) (hv : v ∈ cj) {pu pv : ℚ × ℚ}
    (hpu : (u, pu) ∈ pos) (hpv : (v, pv) ∈ pos) :
    secondary flip pu ≠ secondary flip pv := by
  have hposeq := layout_some_eq_specLayout hpos
  rw [hposeq] at hpu hpv
  unfold specLayout at hpu hpv
  obtain ⟨k, hk, hku⟩ := mem_flatten_getD hpu
  obtain ⟨m, hm, hmv⟩ := mem_flatten_getD hpv
  rw [List.length_map, List.length_range] at hk hm
  have hgetk : ∀ (j : Nat), j < (components H).length →
      ((List.range (components H).length).map fun k =>
        specComponentBlock width flip (componentKey nodeorder specOrd
          ((components H).getD k [])) ((components H).getD k [])
          (offsetAt spacing (components H) k)).getD j [] =
      specComponentBlock width flip (componentKey nodeorder specOrd
        ((components H).getD j [])) ((components H).getD j [])
        (offsetAt spacing (components H) j) := by
    intro j hj
    rw [List.getD_eq_getElem _ []
      (by rw [List.length_map, List.length_range]; exact hj)]
    rw [List.getElem_map, List.getElem_range]
  rw [hgetk k hk] at hku
  rw [hgetk m hm] at hmv
  have hmemk : (components H).getD k [] ∈ components H := by
    rw [List.getD_eq_getElem _ _ hk]
    exact List.getElem_mem hk
  have hmemm : (components H).getD m [] ∈ components H := by
    rw [List.getD_eq_getElem _ _ hm]
    exact List.getElem_mem hm
  have hcik : (components H).getD k [] = ci := by
    by_contra hneq
    exact components_disjoint hw hmemk hci hneq u
      (specComponentBlock_fst_mem hku) hu
  have hcjm : (components H).getD m [] = cj := by
    by_contra hneq
    exact components_disjoint hw hmemm hcj hneq v
      (specComponentBlock_fst_mem hmv) hv
  have hkm : k ≠ m := by
    intro h
    exact hne (by rw [← hcik, ← hcjm, h])
  have hbu := specComponentBlock_secondary_bound hku
  have hbv := specComponentBlock_secondary_bound hmv
  rcases Nat.lt_or_ge k m with hlt | hge
  · have hsep := offsetAt_add_height_le hs (components H) hlt (by omega)
    intro heq
    linarith [hbu.2, hbv.1]
  · have hlt : m < k := by omega
    have hsep := offsetAt_add_height_le hs (components H) hlt (by omega)
    intro heq
    linarith [hbu.1, hbv.2]

/-- Witness for C3: the two components of `Hpair` get stacking coordinates
0 and 1. -/
theorem layout_components_no_overlap_witness :
    secondary false ((0 : ℚ), (0 : ℚ)) ≠ secondary false ((0 : ℚ), (1 : ℚ)) :=
  @layout_components_no_overlap Hpair 0 1 false none idOrd
    [(V.node 1, 0, 0), (V.edge "e1", 1, 0), (V.node 2, 0, 1), (V.edge "e2", 1, 1)]
    (by decide) (by norm_num) Hpair_layout
    [V.node 1, V.edge "e1"] [V.node 2, V.edge "e2"]
    (by rw [Hpair_components]; exact List.mem_cons_self _ _)
    (by rw [Hpair_components]
        exact List.mem_cons_of_mem _ (List.mem_cons_self _ _))
    (by decide) (V.node 1) (V.node 2) (by decide) (by decide)
    ((0 : ℚ), (0 : ℚ)) ((0 : ℚ), (1 : ℚ))
    (List.mem_cons_self _ _)
    (List.mem_cons_of_mem _ (List.mem_cons_of_mem _ (List.mem_cons_self _ _)))

/-- C4: when the position map covers the vertices that occur in membership
pairs, `draw_hyper_edges` builds exactly one line segment per
(node, hyperedge) membership pair of `H` — the segment's endpoints are the
positions of that node and that hyperedge — and no segment for any
non-membership pair (each membership pair occurs exactly once in the pair
list, a non-membership pair zero times). -/
theorem draw_hyper_edges_segments (H : Hypergraph) (pos : List (V × ℚ × ℚ))
    (hcov : ∀ p ∈ hyperPairs H, (pyDictGet pos (V.node p.1)).isSome ∧
      (pyDictGet pos (V.edge p.2)).isSome)
    (he : (H.edges.map Prod.fst).Nodup) (hm : ∀ p ∈ H.edges, p.2.Nodup) :
    ∃ segs, draw_hyper_edges H pos = some segs ∧
      segs.length = (hyperPairs H).length ∧
      (∀ k, k < (hyperPairs H).length →
        pyDictGet pos (V.node (((hyperPairs H).getD k (0, "")).1)) =
            some ((segs.getD k ((0, 0), 0, 0)).1) ∧
          pyDictGet pos (V.edge (((hyperPairs H).getD k (0, "")).2)) =
            some ((segs.getD k ((0, 0), 0, 0)).2)) ∧
      ∀ (n : Nat) (e : String),
        (hyperPairs H).count (n, e) = if memPair H n e then 1 else 0 := by
  obtain ⟨segs, h1, h2, h3⟩ := segmentsOf_total hcov
  exact ⟨segs, h1, h2, h3, fun n e => pairsOf_count he hm n e⟩

/-- Witness for C4 at the concrete two-component hypergraph and its layout. -/
theorem draw_hyper_edges_segments_witness :
    ∃ segs, draw_hyper_edges Hpair
        [(V.node 1, 0, 0), (V.edge "e1", 1, 0),
          (V.node 2, 0, 1), (V.edge "e2", 1, 1)] = some segs ∧
      segs.length = (hyperPairs Hpair).length ∧
      (∀ k, k < (hyperPairs Hpair).length →
        pyDictGet [(V.node 1, 0, 0), (V.edge "e1", 1, 0),
            (V.node 2, 0, 1), (V.edge "e2", 1, 1)]
            (V.node (((hyperPairs Hpair).getD k (0, "")).1)) =
            some ((segs.getD k ((0, 0), 0, 0)).1) ∧
          pyDictGet [(V.node 1, 0, 0), (V.edge "e1", 1, 0),
            (V.node 2, 0, 1), (V.edge "e2", 1, 1)]
            (V.edge (((hyperPairs Hpair).getD k (0, "")).2)) =
            some ((segs.getD k ((0, 0), 0, 0)).2)) ∧
      ∀ (n : Nat) (e : String),
        (hyperPairs Hpair).count (n, e) = if memPair Hpair n e then 1 else 0 :=
  draw_hyper_edges_segments Hpair _ (by decide) (by decide) (by decide)

/-- C5: for identical remaining parameters, the layout computed with the
orientation flipped is the coordinate-wise transpose of the layout computed
without the flip. -/
theorem layout_flip_transpose (H : Hypergraph) (spacing width : ℚ)
    (nodeorder : Option (List (Nat × Int))) (specOrd : List V → List V) :
    layout_two_column H spacing width true nodeorder specOrd =
      (layout_two_column H spacing width false nodeorder specOrd).map
        (List.map fun q => (q.1, q.2.2, q.2.1)) :=
  layout_flip H spacing width nodeorder specOrd

/-- C6 counterexample: a caller-supplied nodeorder that is merely partial
(no rank for node 2) makes the sort compare a missing rank — in Python a
`TypeError` — so the layout fails instead of returning a position map. -/
theorem layout_partial_nodeorder_fails :
    layout_two_column Hpartial 0 1 false (some [(1, 0)]) idOrd = none := by
  decide

/-- C6 (amended): for a caller-supplied nodeorder that is total over the
node identifiers, `layout_two_column` completes and returns a position map
covering every vertex exactly once; hyperedges are ranked by discovery
order, nodes by the supplied mapping, and the two rank sets are merged into
one lookup, by which each subset is sorted. -/
theorem layout_total_nodeorder_completes (H : Hypergraph) (spacing width : ℚ)
    (flip : Bool) (no : List (Nat × Int)) (specOrd : List V → List V)
    (hw : Wf H) (hn : H.nodes.Nodup) (he : (H.edges.map Prod.fst).Nodup)
    (hno : ∀ n ∈ H.nodes, (pyDictGet no n).isSome) :
    ∃ pos, layout_two_column H spacing width flip (some no) specOrd = some pos ∧
      ∀ x : V, (pos.map Prod.fst).count x =
        if x ∈ bipartiteVerts H then 1 else 0 := by
  obtain ⟨pos, hpos⟩ :=
    layoutGo_isSome (sortsOk_of_total_nodeorder hno) 0 []
  have hpos' : layout_two_column H spacing width flip (some no) specOrd =
      some pos := hpos
  exact ⟨pos, hpos', layout_count_keys hw hn he hpos'⟩

/-- Witness for the amended C6 with a total nodeorder. -/
theorem layout_total_nodeorder_completes_witness :
    ∃ pos, layout_two_column Hpartial 0 1 false (some [(1, 0), (2, 1)]) idOrd =
        some pos ∧
      ∀ x : V, (pos.map Prod.fst).count x =
        if x ∈ bipartiteVerts Hpartial then 1 else 0 :=
  layout_total_nodeorder_completes Hpartial 0 1 false [(1, 0), (2, 1)] idOrd
    (by decide) (by decide) (by decide) (by decide)

/-- C7: on a hypergraph with an isolated node — a single-vertex component,
below the minimum size spectral ordering supports — the layout (without a
nodeorder) still completes and assigns the isolated node a position, for
every behaviour of the external ordering on components of size below 2:
singleton subsets are sorted without consulting any rank. -/
theorem layout_isolated_node_ok (H : Hypergraph) (spacing width : ℚ)
    (flip : Bool) (specOrd : List V → List V) (n : Nat) (hw : Wf H)
    (hn : H.nodes.Nodup) (he : (H.edges.map Prod.fst).Nodup)
    (hmem : n ∈ H.nodes) (_hiso : ∀ p ∈ H.edges, n ∉ p.2)
    (hso : ∀ ci ∈ components H, 2 ≤ ci.length → ∀ v ∈ ci, v ∈ specOrd ci) :
    ∃ pos, layout_two_column H spacing width flip none specOrd = some pos ∧
      V.node n ∈ pos.map Prod.fst := by
  obtain ⟨pos, hpos⟩ := layoutGo_isSome (sortsOk_of_specOrd hso) 0 []
  have hpos' : layout_two_column H spacing width flip none specOrd =
      some pos := hpos
  refine ⟨pos, hpos', ?_⟩
  have hc := layout_count_keys hw hn he hpos' (V.node n)
  rw [if_pos (node_mem_bipartiteVerts.mpr hmem)] at hc
  exact List.count_pos_iff.mp (by omega)

/-- Witness for C7: node 3 of `Hiso` is isolated and is placed, with the
external ordering behaving arbitrarily (here: returning nothing) on its
trivial component. -/
theorem layout_isolated_node_ok_witness :
    ∃ pos, layout_two_column Hiso 0 1 false none
        (fun ci => if 2 ≤ ci.length then ci else []) = some pos ∧
      V.node 3 ∈ pos.map Prod.fst :=
  layout_isolated_node_ok Hiso 0 1 false
    (fun ci => if 2 ≤ ci.length then ci else []) 3 (by decide) (by decide)
    (by decide) (by decide) (by decide) (by decide)

/-- C8: `layout_two_column` is deterministic — two calls on the same
(unchanged) hypergraph with identical spacing, width, orientation, nodeorder
and spectral-ordering arguments return identical position maps (in this pure
embedding the call is a function of its arguments). -/
theorem layout_deterministic (H H' : Hypergraph) (s s' w w' : ℚ) (f f' : Bool)
    (no no' : Option (List (Nat × Int))) (so so' : List V → List V)
    (hH : H = H') (hs : s = s') (hw : w = w') (hf : f = f') (hno : no = no')
    (hso : so = so') :
    layout_two_column H s w f no so = layout_two_column H' s' w' f' no' so' := by
  rw [hH, hs, hw, hf, hno, hso]

/-- Witness for C8 at concrete equal arguments. -/
theorem layout_deterministic_witness :
    layout_two_column Hpair 0 1 false none idOrd =
      layout_two_column Hpair 0 1 false none idOrd :=
  layout_deterministic Hpair Hpair 0 0 1 1 false false none none idOrd idOrd
    rfl rfl rfl rfl rfl rfl

/-- C9 counterexample: `draw` with `with_color` set (its default) executes
`edge_kwargs["color"] = {...}` on a caller-supplied non-empty dict, so the
dict observed after the call differs from the one passed in: the inputs are
not left unchanged. -/
theorem draw_mutates_edge_kwargs :
    draw_edge_kwargs_after Hpair (some [("linewidth", KwVal.other 2)]) true ≠
      some [("linewidth", KwVal.other 2)] := by
  decide

/-- C9 (amended): the layout itself is pure, and `draw` leaves the caller's
`edge_kwargs` dict unchanged when `with_color` is false or when no dict is
supplied; but when `with_color` is set and the caller supplies a non-empty
dict, `draw` writes exactly the "color" key (the per-hyperedge palette
assignment) into that dict. -/
theorem draw_edge_kwargs_frame :
    (∀ (H : Hypergraph) (d : List (String × KwVal)),
      draw_edge_kwargs_after H (some d) false = some d) ∧
    (∀ (H : Hypergraph) (wc : Bool),
      draw_edge_kwargs_after H none wc = none) ∧
    (∀ (H : Hypergraph) (d : List (String × KwVal)), ¬ d.isEmpty = true →
      draw_edge_kwargs_after H (some d) true =
        some (dictSet d "color" (KwVal.colors (colorAssign H)))) := by
  refine ⟨fun H d => ?_, fun H wc => rfl, fun H d hd => ?_⟩
  · show (if d.isEmpty = true then some d
        else some (if false = true
          then dictSet d "color" (KwVal.colors (colorAssign H)) else d)) = some d
    by_cases hempty : d.isEmpty = true
    · rw [if_pos hempty]
    · rw [if_neg hempty]
      norm_num
  · show (if d.isEmpty = true then some d
        else some (if true = true
          then dictSet d "color" (KwVal.colors (colorAssign H)) else d)) =
      some (dictSet d "color" (KwVal.colors (colorAssign H)))
    rw [if_neg hd, if_pos rfl]

/-- Witness for the amended C9: an unchanged dict with `with_color` false,
and the exact "color" write with `with_color` true. -/
theorem draw_edge_kwargs_frame_witness :
    draw_edge_kwargs_after Hpair (some [("linewidth", KwVal.other 2)]) false =
        some [("linewidth", KwVal.other 2)] ∧
      draw_edge_kwargs_after Hpair (some [("linewidth", KwVal.other 2)]) true =
        some (dictSet [("linewidth", KwVal.other 2)] "color"
          (KwVal.colors (colorAssign Hpair))) :=
  ⟨draw_edge_kwargs_frame.1 Hpair [("linewidth", KwVal.other 2)],
    draw_edge_kwargs_frame.2.2 Hpair [("linewidth", KwVal.other 2)] (by decide)⟩

/-- C10: `draw` invokes the layout with the default spacing 0, passing its
`column_spacing` as the layout's `width`; hence in every position map
produced through `draw` the offset of component `k` is exactly the sum of
the heights of the prior components (zero inter-component gap), and
`column_spacing` only sets the distance between the two columns. -/
theorem draw_zero_spacing :
    (∀ (H : Hypergraph) (cw : ℚ) (flip : Bool)
        (no : Option (List (Nat × Int))) (so : List V → List V),
      draw_pos H cw flip no so = layout_two_column H 0 cw flip no so) ∧
    (∀ (H : Hypergraph) (cw : ℚ) (flip : Bool)
        (no : Option (List (Nat × Int))) (so : List V → List V)
        (pos : List (V × ℚ × ℚ)),
      draw_pos H cw flip no so = some pos →
        pos = specLayout 0 cw flip (componentKey no so) (components H)) ∧
    (∀ (cs : List (List V)) (k : Nat),
      offsetAt 0 cs k = ((cs.take k).map fun ci => (compHeight ci : ℚ)).sum) := by
  refine ⟨fun H cw flip no so => rfl, fun H cw flip no so pos hpos => ?_,
    fun cs k => ?_⟩
  · exact layout_some_eq_specLayout hpos
  · unfold offsetAt
    congr 1
    exact List.map_congr_left fun ci _ => by rw [add_zero]

/-- Witness for C10 at the concrete two-component hypergraph. -/
theorem draw_zero_spacing_witness :
    ∃ pos, draw_pos Hpair 1 false none idOrd = some pos ∧
      pos = specLayout 0 1 false (componentKey none idOrd) (components Hpair) :=
  ⟨_, Hpair_layout,
    draw_zero_spacing.2.1 Hpair 1 false none idOrd _ Hpair_layout⟩


end TwoColumn
